import Mathlib

/-!
Verification of the wordle-solver core (`solver.py`): the per-letter response
classification embedded in `determinePartitionSizes`, the partition histogram,
the cost function `findCostOfPartitioning`, and the best/worst-guess ranking
in `main`.  Words are lists of characters, the Python `dict` histogram is an
association list, Python `float` arithmetic is modelled over `ℚ` (all the
quantities involved are exact ratios of integers).
-/

namespace WordleSolver

/-- Modelled from the spec: the `State` enumeration is imported from `data.py`,
which is not among the provided sources.  The spec lists the four values
UNKNOWN, ABSENT, PRESENT, CORRECT, with UNKNOWN a transient initializer. -/
inductive State where
  | UNKNOWN
  | ABSENT
  | PRESENT
  | CORRECT
deriving DecidableEq, Repr

/-- A word is a sequence of characters (Python `str`). -/
abbrev Word := List Char

/-- A response is an ordered sequence of per-position states. -/
abbrev Response := List State

/-- The state assigned by one iteration of the inner loop of
`determinePartitionSizes` in `solver.py`: `letter` is `word[idx]` (the
candidate word's letter), and the branches mirror
`if wordGuess[idx] == letter: CORRECT` /
`if letter in wordGuess: PRESENT` / `ABSENT`.  Out-of-range indexing
(`wordGuess[idx]` with `idx >= len(wordGuess)`) is undefined in the source;
`getD` totalizes it with an arbitrary character. -/
def letterState (wordGuess : Word) (idx : Nat) (letter : Char) : State :=
  if wordGuess.getD idx default = letter then State.CORRECT
  else if letter ∈ wordGuess then State.PRESENT
  else State.ABSENT

/-- The response-classification loop of `determinePartitionSizes`:
`states = [State.UNKNOWN]*len(word)` followed by
`for idx, letter in enumerate(word): states[idx] = ...`. -/
def classify (wordGuess word : Word) : Response :=
  (word.enum).foldl
    (fun states p => states.set p.1 (letterState wordGuess p.1 p.2))
    (List.replicate word.length State.UNKNOWN)

/-- Writing `f idx letter` into position `idx` for every `(idx, letter)` of
`enumFrom k w`, starting from an accumulator of length `k + w.length`,
keeps the first `k` entries and replaces the rest by the mapped values. -/
theorem foldl_set_enumFrom (f : Nat → Char → State) :
    ∀ (w : List Char) (k : Nat) (acc : List State), acc.length = k + w.length →
      (List.enumFrom k w).foldl (fun states p => states.set p.1 (f p.1 p.2)) acc
        = acc.take k ++ (List.enumFrom k w).map (fun p => f p.1 p.2) := by
  intro w
  induction w with
  | nil =>
    intro k acc hlen
    simp only [List.enumFrom, List.foldl_nil, List.map_nil, List.append_nil]
    have : k = acc.length := by simpa using hlen.symm
    rw [this, List.take_length]
  | cons c w ih =>
    intro k acc hlen
    rw [List.enumFrom_cons, List.foldl_cons, List.map_cons]
    have hk : k < acc.length := by
      rw [hlen, List.length_cons]; omega
    have hlen' : (acc.set k (f k c)).length = (k + 1) + w.length := by
      rw [List.length_set, hlen, List.length_cons]; omega
    rw [ih (k + 1) (acc.set k (f k c)) hlen']
    have htake : (acc.set k (f k c)).take (k + 1) = acc.take k ++ [f k c] := by
      rw [List.set_eq_take_append_cons_drop, if_pos hk]
      have hk' : (acc.take k).length = k := List.length_take_of_le (Nat.le_of_lt hk)
      have : k + 1 = (acc.take k).length + 1 := by rw [hk']
      rw [this, List.take_append]
      simp
    rw [htake, List.append_assoc, List.singleton_append]

/-- The mutation loop of `classify` is the pointwise map of `letterState`
over the enumerated candidate word. -/
theorem classify_eq_map (wordGuess word : Word) :
    classify wordGuess word
      = (word.enum).map (fun p => letterState wordGuess p.1 p.2) := by
  unfold classify
  rw [List.enum_eq_enumFrom,
    foldl_set_enumFrom (letterState wordGuess) word 0
      (List.replicate word.length State.UNKNOWN) (by simp)]
  simp

/-- No branch of the classification loop body ever writes `UNKNOWN`. -/
theorem letterState_ne_UNKNOWN (g : Word) (i : Nat) (c : Char) :
    letterState g i c ≠ State.UNKNOWN := by
  unfold letterState
  split
  · decide
  · split <;> decide

/-- A finished classification has one state per candidate letter. -/
theorem length_classify (g w : Word) : (classify g w).length = w.length := by
  rw [classify_eq_map, List.length_map, List.enum_length]

/-- `UNKNOWN` never survives the classification loop. -/
theorem unknown_not_mem_classify (g w : Word) : State.UNKNOWN ∉ classify g w := by
  rw [classify_eq_map]
  intro hmem
  obtain ⟨p, hp, hEq⟩ := List.mem_map.mp hmem
  exact letterState_ne_UNKNOWN g p.1 p.2 hEq

/-- The `defaultdict(int)` histogram update `partitionSizes[key] += 1`:
increment the count stored under `key`, inserting `1` on first sight. -/
def incr (partitionSizes : List (Response × Nat)) (key : Response) :
    List (Response × Nat) :=
  match partitionSizes with
  | [] => [(key, 1)]
  | (k, v) :: rest =>
    if k = key then (k, v + 1) :: rest else (k, v) :: incr rest key

/-- `determinePartitionSizes` from `solver.py`: classify every word of
`wordList` against `wordGuess` and count the words per response. -/
def determinePartitionSizes (wordGuess : Word) (wordList : List Word) :
    List (Response × Nat) :=
  wordList.foldl (fun sizes word => incr sizes (classify wordGuess word)) []

/-- Incrementing one key raises the total count by exactly one. -/
theorem sum_incr (h : List (Response × Nat)) (key : Response) :
    ((incr h key).map Prod.snd).sum = (h.map Prod.snd).sum + 1 := by
  induction h with
  | nil => simp [incr]
  | cons p rest ih =>
    obtain ⟨k, v⟩ := p
    by_cases hk : k = key
    · simp only [incr, if_pos hk, List.map_cons, List.sum_cons]
      omega
    · simp only [incr, if_neg hk, List.map_cons, List.sum_cons, ih]
      omega

/-- Folding the histogram update over a word list adds one per word. -/
theorem sum_foldl_incr (g : Word) :
    ∀ (ws : List Word) (acc : List (Response × Nat)),
      (((ws.foldl (fun sizes word => incr sizes (classify g word)) acc)).map
          Prod.snd).sum
        = (acc.map Prod.snd).sum + ws.length := by
  intro ws
  induction ws with
  | nil => intro acc; simp
  | cons w t ih =>
    intro acc
    rw [List.foldl_cons, ih, sum_incr, List.length_cons]
    omega

/-- C2: for every guess `g` and corpus of words of the length of `g`, the
histogram counts of `determinePartitionSizes` sum to the corpus size. -/
theorem partition_conservation (g : Word) (corpus : List Word)
    (hlen : ∀ w ∈ corpus, w.length = g.length) :
    ((determinePartitionSizes g corpus).map Prod.snd).sum = corpus.length := by
  unfold determinePartitionSizes
  rw [sum_foldl_incr]
  simp

/-- C2 witness: the conservation invariant at the spec's toy corpus. -/
theorem partition_conservation_witness :
    (∀ w ∈ ["aabb".toList, "bbaa".toList], w.length = "aabb".toList.length)
      ∧ ((determinePartitionSizes "aabb".toList
            ["aabb".toList, "bbaa".toList]).map Prod.snd).sum = 2 :=
  ⟨by decide, partition_conservation _ _ (by decide)⟩

/-- C7: classifying a word against itself yields CORRECT at every position. -/
theorem classify_self (w : Word) :
    classify w w = List.replicate w.length State.CORRECT := by
  rw [classify_eq_map]
  apply List.eq_replicate_iff.mpr
  refine ⟨by rw [List.length_map, List.enum_length], ?_⟩
  intro b hb
  obtain ⟨p, hp, rfl⟩ := List.mem_map.mp hb
  obtain ⟨i, c⟩ := p
  rw [List.enum_eq_enumFrom] at hp
  obtain ⟨-, hi, hc⟩ := List.mem_enumFrom hp
  simp only [Nat.zero_add] at hi
  simp only [Nat.sub_zero] at hc
  unfold letterState
  rw [List.getD_eq_getElem w default hi, if_pos hc.symm]

/-- Every key of the histogram built by `incr` folding is either a key of the
accumulator or the classification of some corpus word. -/
theorem mem_keys_incr (h : List (Response × Nat)) (key k : Response)
    (hmem : k ∈ (incr h key).map Prod.fst) :
    k ∈ h.map Prod.fst ∨ k = key := by
  induction h with
  | nil =>
    simp only [incr, List.map_cons, List.map_nil, List.mem_singleton] at hmem
    exact Or.inr hmem
  | cons p rest ih =>
    obtain ⟨k', v⟩ := p
    by_cases hk : k' = key
    · simp only [incr, if_pos hk, List.map_cons, List.mem_cons] at hmem
      rcases hmem with h1 | h2
      · exact Or.inl (by simp [h1])
      · exact Or.inl (by simp [h2])
    · simp only [incr, if_neg hk, List.map_cons, List.mem_cons] at hmem
      rcases hmem with h1 | h2
      · exact Or.inl (by simp [h1])
      · rcases ih h2 with h3 | h4
        · exact Or.inl (by simp [h3])
        · exact Or.inr h4

/-- Keys of the fold come from the accumulator or from classifications. -/
theorem mem_keys_foldl_incr (g : Word) :
    ∀ (ws : List Word) (acc : List (Response × Nat)) (k : Response),
      k ∈ ((ws.foldl (fun sizes word => incr sizes (classify g word)) acc)).map
            Prod.fst →
        k ∈ acc.map Prod.fst ∨ ∃ w ∈ ws, k = classify g w := by
  intro ws
  induction ws with
  | nil => intro acc k hk; exact Or.inl hk
  | cons w t ih =>
    intro acc k hk
    rw [List.foldl_cons] at hk
    rcases ih (incr acc (classify g w)) k hk with h1 | h2
    · rcases mem_keys_incr acc (classify g w) k h1 with h3 | h4
      · exact Or.inl h3
      · exact Or.inr ⟨w, by simp, h4⟩
    · obtain ⟨w', hw', hkw'⟩ := h2
      exact Or.inr ⟨w', by simp [hw'], hkw'⟩

/-- C9: for a guess and a corpus of words of the guess's length, every key of
the finished partition histogram contains no UNKNOWN state and has exactly
one state per letter of the guess. -/
theorem finished_responses_wellformed (g : Word) (corpus : List Word)
    (hlen : ∀ w ∈ corpus, w.length = g.length) :
    ∀ key ∈ (determinePartitionSizes g corpus).map Prod.fst,
      State.UNKNOWN ∉ key ∧ key.length = g.length := by
  intro key hkey
  rcases mem_keys_foldl_incr g corpus [] key hkey with h1 | h2
  · simp at h1
  · obtain ⟨w, hw, rfl⟩ := h2
    exact ⟨unknown_not_mem_classify g w, by rw [length_classify]; exact hlen w hw⟩

/-- C9 witness: well-formed responses on a concrete guess and corpus. -/
theorem finished_responses_wellformed_witness :
    (∀ w ∈ ["bbaa".toList], w.length = "aabb".toList.length)
      ∧ ∀ key ∈ (determinePartitionSizes "aabb".toList ["bbaa".toList]).map
            Prod.fst,
          State.UNKNOWN ∉ key ∧ key.length = "aabb".toList.length :=
  ⟨by decide, finished_responses_wellformed _ _ (by decide)⟩

/-- `findCostOfPartitioning` from `solver.py`:
`numWords = sum(partitions.values())`, `upperBound = numWords**2`,
`unnormalizedCost = sum([val**2 for val in partitions.values()])`, and the
returned quotient.  Python `float` division is modelled exactly over `ℚ`. -/
def findCostOfPartitioning (partitions : List (Response × Nat)) : ℚ :=
  let numWords : Nat := (partitions.map Prod.snd).sum
  let upperBound : Nat := numWords ^ 2
  let unnormalizedCost : Nat := (partitions.map (fun p => p.2 ^ 2)).sum
  (unnormalizedCost : ℚ) / (upperBound : ℚ)

/-- Casting a sum of squared counts into `ℚ` commutes with squaring. -/
theorem cast_sum_sq (l : List Nat) :
    (((l.map (fun v => v ^ 2)).sum : Nat) : ℚ)
      = (l.map (fun v : Nat => (v : ℚ) ^ 2)).sum := by
  rw [Nat.cast_list_sum, List.map_map]
  congr 1

/-- Squaring the counts commutes with projecting them out of the pairs. -/
theorem map_sq_snd (h : List (Response × Nat)) :
    h.map (fun p => p.2 ^ 2) = (h.map Prod.snd).map (fun v => v ^ 2) := by
  rw [List.map_map]; rfl

/-- C3: for a non-empty histogram the cost is the sum of squared counts
divided by the square of the total count. -/
theorem cost_formula (h : List (Response × Nat)) (hne : h ≠ []) :
    findCostOfPartitioning h
      = ((h.map Prod.snd).map (fun v : Nat => (v : ℚ) ^ 2)).sum
          / ((h.map Prod.snd).map (Nat.cast : Nat → ℚ)).sum ^ 2 := by
  simp only [findCostOfPartitioning]
  rw [map_sq_snd, cast_sum_sq, Nat.cast_pow, Nat.cast_list_sum]

/-- C3 witness: the formula instantiated at a one-entry histogram. -/
theorem cost_formula_witness :
    ([(([State.CORRECT] : Response), 1)] ≠ ([] : List (Response × Nat)))
      ∧ findCostOfPartitioning [(([State.CORRECT] : Response), 1)]
          = (([(([State.CORRECT] : Response), 1)].map Prod.snd).map
                (fun v : Nat => (v : ℚ) ^ 2)).sum
              / (([(([State.CORRECT] : Response), 1)].map Prod.snd).map
                    (Nat.cast : Nat → ℚ)).sum ^ 2 :=
  ⟨by simp, cost_formula _ (by simp)⟩

/-- Sum of squares of a non-empty list of positive naturals is at most the
square of the sum, with equality exactly for singletons. -/
theorem sq_sum_bounds :
    ∀ (l : List Nat), l ≠ [] → (∀ v ∈ l, 0 < v) →
      (l.map (fun v => v ^ 2)).sum ≤ l.sum ^ 2
        ∧ ((l.map (fun v => v ^ 2)).sum = l.sum ^ 2 ↔ l.length = 1) := by
  intro l
  induction l with
  | nil => intro hne _; exact absurd rfl hne
  | cons v t ih =>
    intro _ hpos
    cases t with
    | nil => simp
    | cons w t' =>
      have hposT : ∀ x ∈ w :: t', 0 < x :=
        fun x hx => hpos x (List.mem_cons_of_mem _ hx)
      obtain ⟨hle, -⟩ := ih (by simp) hposT
      have hv : 0 < v := hpos v (by simp)
      have hs : 0 < (w :: t').sum :=
        List.sum_pos _ hposT (by simp)
      have hstrict : ((v :: w :: t').map (fun x => x ^ 2)).sum
          < (v :: w :: t').sum ^ 2 := by
        simp only [List.map_cons, List.sum_cons] at hle hs ⊢
        nlinarith [hle, hv, hs]
      refine ⟨Nat.le_of_lt hstrict, ?_⟩
      constructor
      · intro heq; exact absurd heq (Nat.ne_of_lt hstrict)
      · intro hlen; simp at hlen

/-- C4: for a non-empty histogram with positive counts, the cost lies in
`(0, 1]`, and equals `1` exactly when the histogram has a single key. -/
theorem cost_bounds (h : List (Response × Nat)) (hne : h ≠ [])
    (hpos : ∀ p ∈ h, 0 < p.2) :
    0 < findCostOfPartitioning h ∧ findCostOfPartitioning h ≤ 1
      ∧ (findCostOfPartitioning h = 1 ↔ h.length = 1) := by
  have hvne : h.map Prod.snd ≠ [] := by
    simpa [List.map_eq_nil_iff] using hne
  have hvpos : ∀ v ∈ h.map Prod.snd, 0 < v := by
    intro v hv
    obtain ⟨p, hp, rfl⟩ := List.mem_map.mp hv
    exact hpos p hp
  obtain ⟨hle, hiff⟩ := sq_sum_bounds (h.map Prod.snd) hvne hvpos
  have hN : 0 < (h.map Prod.snd).sum := List.sum_pos _ hvpos hvne
  have hQ : 0 < ((h.map Prod.snd).map (fun v => v ^ 2)).sum := by
    apply List.sum_pos
    · intro x hx
      obtain ⟨v, hv, rfl⟩ := List.mem_map.mp hx
      exact pow_pos (hvpos v hv) 2
    · simpa [List.map_eq_nil_iff] using hne
  have hQ' : 0 < (h.map (fun p => p.2 ^ 2)).sum := by
    rwa [map_sq_snd]
  have hle' : (h.map (fun p => p.2 ^ 2)).sum ≤ (h.map Prod.snd).sum ^ 2 := by
    rwa [map_sq_snd]
  have hiff' : (h.map (fun p => p.2 ^ 2)).sum = (h.map Prod.snd).sum ^ 2
      ↔ h.length = 1 := by
    rw [map_sq_snd, hiff, List.length_map]
  have hN2 : (0 : ℚ) < (((h.map Prod.snd).sum ^ 2 : Nat) : ℚ) := by
    exact_mod_cast pow_pos hN 2
  simp only [findCostOfPartitioning]
  refine ⟨div_pos (by exact_mod_cast hQ') hN2, ?_, ?_⟩
  · rw [div_le_one hN2]
    exact_mod_cast hle'
  · rw [div_eq_one_iff_eq (ne_of_gt hN2), Nat.cast_inj]
    exact hiff'

/-- C4 witness: bounds and the equality criterion at a two-entry histogram. -/
theorem cost_bounds_witness :
    ([(([State.CORRECT] : Response), 1), (([State.ABSENT] : Response), 1)]
        ≠ ([] : List (Response × Nat)))
      ∧ (∀ p ∈ [(([State.CORRECT] : Response), 1),
            (([State.ABSENT] : Response), 1)], 0 < p.2)
      ∧ (0 < findCostOfPartitioning
            [(([State.CORRECT] : Response), 1), (([State.ABSENT] : Response), 1)]
          ∧ findCostOfPartitioning
              [(([State.CORRECT] : Response), 1),
                (([State.ABSENT] : Response), 1)] ≤ 1
          ∧ (findCostOfPartitioning
                [(([State.CORRECT] : Response), 1),
                  (([State.ABSENT] : Response), 1)] = 1
              ↔ ([(([State.CORRECT] : Response), 1),
                    (([State.ABSENT] : Response), 1)] :
                  List (Response × Nat)).length = 1)) :=
  ⟨by simp, by decide, cost_bounds _ (by simp) (by decide)⟩

/-- C10: the cost depends only on the multiset of histogram counts. -/
theorem cost_depends_only_on_counts (h₁ h₂ : List (Response × Nat))
    (hvals : ((h₁.map Prod.snd : List Nat) : Multiset Nat)
      = ((h₂.map Prod.snd : List Nat) : Multiset Nat)) :
    findCostOfPartitioning h₁ = findCostOfPartitioning h₂ := by
  have hp : (h₁.map Prod.snd).Perm (h₂.map Prod.snd) :=
    Multiset.coe_eq_coe.mp hvals
  unfold findCostOfPartitioning
  have hsum : (h₁.map Prod.snd).sum = (h₂.map Prod.snd).sum := hp.sum_eq
  have hsq : (h₁.map (fun p => p.2 ^ 2)).sum
      = (h₂.map (fun p => p.2 ^ 2)).sum := by
    have hmp := (hp.map (fun v => v ^ 2)).sum_eq
    rwa [List.map_map, List.map_map] at hmp
  rw [hsum, hsq]

/-- C10 witness: equal count multisets under different keys, equal cost. -/
theorem cost_depends_only_on_counts_witness :
    (((([(([State.CORRECT] : Response), 1), (([State.ABSENT] : Response), 2)] :
          List (Response × Nat)).map Prod.snd : List Nat) : Multiset Nat)
        = ((([(([State.PRESENT] : Response), 2),
              (([State.UNKNOWN] : Response), 1)] :
            List (Response × Nat)).map Prod.snd : List Nat) : Multiset Nat))
      ∧ findCostOfPartitioning
            [(([State.CORRECT] : Response), 1), (([State.ABSENT] : Response), 2)]
          = findCostOfPartitioning
              [(([State.PRESENT] : Response), 2),
                (([State.UNKNOWN] : Response), 1)] :=
  ⟨by decide, cost_depends_only_on_counts _ _ (by decide)⟩

/-- Modelled from the spec: the classification contract of §4.1, per guess
position `i`: CORRECT if `candidate[i] == guess[i]`, else PRESENT if
`guess[i]` occurs anywhere in `candidate`, else ABSENT.  This matches the
module docstring of `solver.py` ("a guess-letter is present if it is present
in the answer") and the response decoding in `example_generator.py`, and is
stated here to compare against the classification the code computes. -/
def classifySpec (guess candidate : Word) : Response :=
  (List.range guess.length).map (fun i =>
    if candidate.getD i default = guess.getD i default then State.CORRECT
    else if guess.getD i default ∈ candidate then State.PRESENT
    else State.ABSENT)

/-- C1: at guess "roars" and candidate "radar" the loop of
`determinePartitionSizes` marks position 1 PRESENT because the candidate's
letter 'a' occurs in the guess, although the guess's letter 'o' occurs
nowhere in the candidate; the classification stated by the spec (and by the
module's own docstring) differs at positions 1, 2 and 4. -/
theorem classify_roars_radar :
    classify "roars".toList "radar".toList
        = [State.CORRECT, State.PRESENT, State.ABSENT, State.PRESENT,
            State.PRESENT]
      ∧ classifySpec "roars".toList "radar".toList
          = [State.CORRECT, State.ABSENT, State.PRESENT, State.PRESENT,
              State.ABSENT]
      ∧ classify "roars".toList "radar".toList
          ≠ classifySpec "roars".toList "radar".toList := by
  refine ⟨by decide, by decide, by decide⟩

/-- Modelled from the spec: the leftover candidate letters available for
PRESENT marks in a duplicate-letter-aware Wordle scorer — every candidate
letter not already consumed by a positional (CORRECT) match. -/
def wordleLeftover (guess candidate : Word) : List Char :=
  (List.zip guess candidate).filterMap
    (fun p => if p.1 = p.2 then none else some p.2)

/-- Modelled from the spec: the scoring pass of a duplicate-letter-aware
Wordle scorer, consuming one leftover candidate letter per PRESENT mark. -/
def wordleScoreAux : List (Char × Char) → List Char → Response
  | [], _ => []
  | (g, c) :: rest, leftover =>
    if g = c then State.CORRECT :: wordleScoreAux rest leftover
    else if g ∈ leftover then
      State.PRESENT :: wordleScoreAux rest (leftover.erase g)
    else State.ABSENT :: wordleScoreAux rest leftover

/-- Modelled from the spec: a duplicate-letter-aware Wordle scorer, which
consumes each candidate letter at most once. -/
def wordleScore (guess candidate : Word) : Response :=
  wordleScoreAux (List.zip guess candidate) (wordleLeftover guess candidate)

/-- C8: there is an equal-length pair — guess "aab", candidate "abc" — where
the guess repeats the letter 'a', the candidate's only 'a' is consumed by the
CORRECT match at position 0, and at position 1 the embedded classifier
reports PRESENT while the duplicate-letter-aware scorer reports ABSENT. -/
theorem duplicate_letter_overreport :
    ∃ (g c : Word) (letter : Char) (j i : Nat),
      g.length = c.length
        ∧ 2 ≤ g.count letter
        ∧ c.count letter = 1
        ∧ j < c.length
        ∧ g.getD j default = letter
        ∧ c.getD j default = letter
        ∧ (classify g c).getD j State.UNKNOWN = State.CORRECT
        ∧ i ≠ j
        ∧ g.getD i default = letter
        ∧ (classify g c).getD i State.UNKNOWN = State.PRESENT
        ∧ (wordleScore g c).getD i State.UNKNOWN = State.ABSENT :=
  ⟨"aab".toList, "abc".toList, 'a', 0, 1, by decide⟩

/-- A heap entry `(cost, guess)` as pushed by `main` in `solver.py`. -/
abbrev Entry := ℚ × Word

/-- Python string comparison `<`: lexicographic by character code point. -/
def ltWord : Word → Word → Bool
  | [], [] => false
  | [], _ :: _ => true
  | _ :: _, [] => false
  | a :: as, b :: bs =>
    if a < b then true else if b < a then false else ltWord as bs

/-- Python tuple comparison `<` on `(cost, guess)` pairs, as used by the
heap invariant of `heapq`. -/
def ltEntry (x y : Entry) : Bool :=
  decide (x.1 < y.1) || (decide (x.1 = y.1) && ltWord x.2 y.2)

/-- `heapq._siftdown(heap, 0, pos)` with the new item already appended at
`pos`: repeatedly move the parent down while it is greater than the new
item, then store the new item at the final hole. -/
def siftdown (newitem : Entry) (heap : List Entry) (pos : Nat) : List Entry :=
  if h : 0 < pos then
    if ltEntry newitem (heap.getD ((pos - 1) / 2) ((0 : ℚ), ([] : Word))) then
      siftdown newitem
        (heap.set pos (heap.getD ((pos - 1) / 2) ((0 : ℚ), ([] : Word))))
        ((pos - 1) / 2)
    else heap.set pos newitem
  else heap.set pos newitem
termination_by pos
decreasing_by omega

/-- `heapq.heappush`: append the item, then sift it down towards the root. -/
def heappush (heap : List Entry) (item : Entry) : List Entry :=
  siftdown item (heap ++ [item]) heap.length

/-- Moving an element of a list to the front in exchange for a new value at
its position is a permutation of consing the new value. -/
theorem get_cons_set_perm {α : Type} :
    ∀ (t : List α) (j : Nat) (hj : j < t.length) (a : α),
      (t[j] :: t.set j a).Perm (a :: t) := by
  intro t
  induction t with
  | nil => intro j hj; simp at hj
  | cons b r ih =>
    intro j hj a
    cases j with
    | zero =>
      rw [List.getElem_cons_zero, List.set_cons_zero]
      exact List.Perm.swap a b r
    | succ j' =>
      have hj' : j' < r.length := by
        rw [List.length_cons] at hj; omega
      rw [List.getElem_cons_succ, List.set_cons_succ]
      refine (List.Perm.swap b (r[j']) (r.set j' a)).trans ?_
      refine (List.Perm.cons b (ih j' hj' a)).trans ?_
      exact List.Perm.swap a b r

/-- Exchanging the values at two positions of a list is a permutation. -/
theorem set_set_swap_perm {α : Type} :
    ∀ (l : List α) (i j : Nat) (hi : i < l.length) (hj : j < l.length),
      ((l.set i (l[j])).set j (l[i])).Perm l := by
  intro l
  induction l with
  | nil => intro i j hi hj; simp at hi
  | cons a t ih =>
    intro i j hi hj
    cases i with
    | zero =>
      cases j with
      | zero => simp
      | succ j' =>
        have hj' : j' < t.length := by rw [List.length_cons] at hj; omega
        rw [List.getElem_cons_succ, List.getElem_cons_zero,
          List.set_cons_zero, List.set_cons_succ]
        exact get_cons_set_perm t j' hj' a
    | succ i' =>
      have hi' : i' < t.length := by rw [List.length_cons] at hi; omega
      cases j with
      | zero =>
        rw [List.getElem_cons_succ, List.getElem_cons_zero,
          List.set_cons_succ, List.set_cons_zero]
        exact get_cons_set_perm t i' hi' a
      | succ j' =>
        have hj' : j' < t.length := by rw [List.length_cons] at hj; omega
        rw [List.getElem_cons_succ, List.getElem_cons_succ,
          List.set_cons_succ, List.set_cons_succ]
        exact List.Perm.cons a (ih i' j' hi' hj')

/-- Writing a copy of the entry at `q` over position `pos` and then a fresh
value over position `q` permutes writing the fresh value at `pos`. -/
theorem set_parent_then_new_perm (heap : List Entry) (pos q : Nat)
    (hq : q < pos) (hpos : pos < heap.length) (x : Entry) :
    ((heap.set pos (heap[q])).set q x).Perm
      (heap.set pos x) := by
  have hqlen : q < heap.length := lt_trans hq hpos
  have hqm : q < (heap.set pos x).length := by rwa [List.length_set]
  have hpm : pos < (heap.set pos x).length := by rwa [List.length_set]
  have e1 : (heap.set pos x)[q] = heap[q] := by
    rw [List.getElem_set, if_neg (Nat.ne_of_gt hq)]
  have e2 : (heap.set pos x)[pos] = x := by
    rw [List.getElem_set, if_pos rfl]
  have h := set_set_swap_perm (heap.set pos x) pos q hpm hqm
  rw [e1, e2, List.set_set] at h
  exact h

/-- Sifting down only permutes the heap with the new item written at `pos`. -/
theorem siftdown_perm (newitem : Entry) :
    ∀ (pos : Nat) (heap : List Entry), pos < heap.length →
      (siftdown newitem heap pos).Perm (heap.set pos newitem) := by
  intro pos
  induction pos using Nat.strong_induction_on with
  | _ pos ih =>
    intro heap hpos
    unfold siftdown
    split
    case isTrue h =>
      have hpplt : (pos - 1) / 2 < pos := by omega
      have hpph : (pos - 1) / 2 < heap.length := lt_trans hpplt hpos
      split
      case isTrue hlt =>
        have hlen : pos < (heap.set pos
            (heap.getD ((pos - 1) / 2) ((0 : ℚ), ([] : Word)))).length := by
          rwa [List.length_set]
        have hpl : (pos - 1) / 2 < (heap.set pos
            (heap.getD ((pos - 1) / 2) ((0 : ℚ), ([] : Word)))).length := by
          rw [List.length_set]; exact hpph
        refine (ih ((pos - 1) / 2) hpplt _ hpl).trans ?_
        have hgetD : heap.getD ((pos - 1) / 2) ((0 : ℚ), ([] : Word))
            = heap[(pos - 1) / 2] := List.getD_eq_getElem _ _ hpph
        rw [hgetD]
        exact set_parent_then_new_perm heap pos ((pos - 1) / 2) hpplt hpos
          newitem
      case isFalse => exact List.Perm.refl _
    case isFalse => exact List.Perm.refl _

/-- Pushing onto the heap only adds the new entry, up to permutation. -/
theorem heappush_perm (heap : List Entry) (item : Entry) :
    (heappush heap item).Perm (item :: heap) := by
  unfold heappush
  have h1 := siftdown_perm item heap.length (heap ++ [item]) (by simp)
  have h2 : (heap ++ [item]).set heap.length item = heap ++ [item] := by
    rw [List.set_eq_take_append_cons_drop]
    rw [if_pos (by simp)]
    rw [List.take_left, List.drop_append]
    simp
  rw [h2] at h1
  exact h1.trans (List.perm_append_singleton item heap)

/-- The evaluation loop of `main`: one `(cost, guess)` pair per allowed
guess, in the iteration order of the allowed-guess list (the progress-bar
wrapper yields the items unchanged and in order). -/
def evaluations (allowedGuesses wordList : List Word) : List Entry :=
  allowedGuesses.map (fun guess =>
    (findCostOfPartitioning (determinePartitionSizes guess wordList), guess))

/-- `guesses_heap` as built by `main`: the evaluations pushed in order. -/
def guessesHeap (allowedGuesses wordList : List Word) : List Entry :=
  (evaluations allowedGuesses wordList).foldl heappush []

/-- `heapq.nsmallest(n, it, key=lambda tup: tup[0])`: the first `n` entries
of the stable ascending sort by cost. -/
def nsmallestByCost (n : Nat) (l : List Entry) : List Entry :=
  (l.mergeSort (fun x y => decide (x.1 ≤ y.1))).take n

/-- `heapq.nlargest(n, it, key=lambda tup: tup[0])`: the first `n` entries
of the stable descending sort by cost. -/
def nlargestByCost (n : Nat) (l : List Entry) : List Entry :=
  (l.mergeSort (fun x y => decide (y.1 ≤ x.1))).take n

/-- The five best guesses printed by `main`. -/
def bestK (allowedGuesses wordList : List Word) : List Entry :=
  nsmallestByCost 5 (guessesHeap allowedGuesses wordList)

/-- The five worst guesses printed by `main`. -/
def worstK (allowedGuesses wordList : List Word) : List Entry :=
  nlargestByCost 5 (guessesHeap allowedGuesses wordList)

/-- The observable output of the ranking computation in `main`. -/
def rank (allowedGuesses wordList : List Word) : List Entry × List Entry :=
  (bestK allowedGuesses wordList, worstK allowedGuesses wordList)

/-- Folding `heappush` over a list of entries permutes that list onto the
accumulator. -/
theorem foldl_heappush_perm :
    ∀ (l : List Entry) (acc : List Entry),
      (l.foldl heappush acc).Perm (acc ++ l) := by
  intro l
  induction l with
  | nil => intro acc; simp
  | cons x t ih =>
    intro acc
    rw [List.foldl_cons]
    refine (ih (heappush acc x)).trans ?_
    refine (List.Perm.append_right t (heappush_perm acc x)).trans ?_
    exact List.perm_middle.symm

/-- The heap built by `main` holds exactly the evaluations. -/
theorem guessesHeap_perm (allowedGuesses wordList : List Word) :
    (guessesHeap allowedGuesses wordList).Perm
      (evaluations allowedGuesses wordList) := by
  simpa using foldl_heappush_perm (evaluations allowedGuesses wordList) []

/-- The ascending cost comparison is transitive. -/
theorem leCost_trans (a b c : Entry) (h1 : decide (a.1 ≤ b.1) = true)
    (h2 : decide (b.1 ≤ c.1) = true) : decide (a.1 ≤ c.1) = true := by
  simp only [decide_eq_true_eq] at *
  exact le_trans h1 h2

/-- The ascending cost comparison is total. -/
theorem leCost_total (a b : Entry) :
    (decide (a.1 ≤ b.1) || decide (b.1 ≤ a.1)) = true := by
  simp only [Bool.or_eq_true, decide_eq_true_eq]
  exact le_total a.1 b.1

/-- The descending cost comparison is transitive. -/
theorem geCost_trans (a b c : Entry) (h1 : decide (b.1 ≤ a.1) = true)
    (h2 : decide (c.1 ≤ b.1) = true) : decide (c.1 ≤ a.1) = true := by
  simp only [decide_eq_true_eq] at *
  exact le_trans h2 h1

/-- The descending cost comparison is total. -/
theorem geCost_total (a b : Entry) :
    (decide (b.1 ≤ a.1) || decide (a.1 ≤ b.1)) = true := by
  simp only [Bool.or_eq_true, decide_eq_true_eq]
  exact le_total b.1 a.1

/-- C5: the ranking evaluates every allowed guess and selects, with `k = 5`,
the five smallest-cost entries as `bestK` and the five largest-cost entries
as `worstK`: each selection, together with the entries it leaves out, is a
permutation of the full evaluation list, and each selected entry's cost is
bounded by every left-out entry's cost. -/
theorem rank_selects_extremes (allowedGuesses wordList : List Word) :
    ((bestK allowedGuesses wordList).length
        = min 5 allowedGuesses.length
      ∧ ∃ rest, ((bestK allowedGuesses wordList) ++ rest).Perm
            (evaluations allowedGuesses wordList)
          ∧ ∀ b ∈ bestK allowedGuesses wordList, ∀ r ∈ rest, b.1 ≤ r.1)
    ∧ ((worstK allowedGuesses wordList).length
        = min 5 allowedGuesses.length
      ∧ ∃ rest, ((worstK allowedGuesses wordList) ++ rest).Perm
            (evaluations allowedGuesses wordList)
          ∧ ∀ b ∈ worstK allowedGuesses wordList, ∀ r ∈ rest, r.1 ≤ b.1) := by
  have hheap := guessesHeap_perm allowedGuesses wordList
  have hlenheap : (guessesHeap allowedGuesses wordList).length
      = allowedGuesses.length := by
    rw [hheap.length_eq]
    simp [evaluations]
  constructor
  · have hperm : ((guessesHeap allowedGuesses wordList).mergeSort
        (fun x y => decide (x.1 ≤ y.1))).Perm
          (evaluations allowedGuesses wordList) :=
      (List.mergeSort_perm _ _).trans hheap
    have hsorted := List.sorted_mergeSort
      (fun a b c => leCost_trans a b c) leCost_total
      (guessesHeap allowedGuesses wordList)
    constructor
    · simp only [bestK, nsmallestByCost, List.length_take,
        List.length_mergeSort]
      omega
    · refine ⟨((guessesHeap allowedGuesses wordList).mergeSort
        (fun x y => decide (x.1 ≤ y.1))).drop 5, ?_, ?_⟩
      · rw [bestK, nsmallestByCost, List.take_append_drop]
        exact hperm
      · intro b hb r hr
        rw [← List.take_append_drop 5 ((guessesHeap allowedGuesses
          wordList).mergeSort (fun x y => decide (x.1 ≤ y.1)))] at hsorted
        obtain ⟨-, -, hcross⟩ := List.pairwise_append.mp hsorted
        have := hcross b hb r hr
        simpa using this
  · have hperm : ((guessesHeap allowedGuesses wordList).mergeSort
        (fun x y => decide (y.1 ≤ x.1))).Perm
          (evaluations allowedGuesses wordList) :=
      (List.mergeSort_perm _ _).trans hheap
    have hsorted := List.sorted_mergeSort
      (fun a b c => geCost_trans a b c) geCost_total
      (guessesHeap allowedGuesses wordList)
    constructor
    · simp only [worstK, nlargestByCost, List.length_take,
        List.length_mergeSort]
      omega
    · refine ⟨((guessesHeap allowedGuesses wordList).mergeSort
        (fun x y => decide (y.1 ≤ x.1))).drop 5, ?_, ?_⟩
      · rw [worstK, nlargestByCost, List.take_append_drop]
        exact hperm
      · intro b hb r hr
        rw [← List.take_append_drop 5 ((guessesHeap allowedGuesses
          wordList).mergeSort (fun x y => decide (y.1 ≤ x.1)))] at hsorted
        obtain ⟨-, -, hcross⟩ := List.pairwise_append.mp hsorted
        have := hcross b hb r hr
        simpa using this

/-- C6: the ranking computation is deterministic — on equal allowed-guess
lists and equal corpora it produces equal `bestK`/`worstK` sequences. -/
theorem rank_deterministic (a₁ ws₁ a₂ ws₂ : List Word)
    (ha : a₁ = a₂) (hw : ws₁ = ws₂) : rank a₁ ws₁ = rank a₂ ws₂ := by
  subst ha
  subst hw
  rfl

/-- C6 witness: determinism at a concrete guess list and corpus. -/
theorem rank_deterministic_witness :
    (["ab".toList] = ["ab".toList])
      ∧ (["ab".toList, "bb".toList] = ["ab".toList, "bb".toList])
      ∧ rank ["ab".toList] ["ab".toList, "bb".toList]
          = rank ["ab".toList] ["ab".toList, "bb".toList] :=
  ⟨rfl, rfl, rank_deterministic _ _ _ _ rfl rfl⟩

end WordleSolver
